import Mathlib

/-!
Verification of the jobserver demo client (src/src/main.rs).

The coordination string is modelled as a `List Char`; Rust string
primitives used by the source (`str::rfind` of a pattern, `str::find`
of a char predicate, slicing, `str::split`, `str::parse::<i32>`) are
embedded below as executable Lean functions, and `parse_jobserver_auth`
and the token-exchange part of `main` are translated on top of them.
-/

/-- `startsWith s pat = true` iff `pat` occurs at the beginning of `s`. -/
def startsWith : List Char → List Char → Bool
  | _, [] => true
  | [], _ :: _ => false
  | c :: cs, p :: ps => (c == p) && startsWith cs ps

/-- Descending search for the greatest index `j ≤ n` at which `pat`
occurs in `s`; embeds the search order of Rust `str::rfind`. -/
def rfindFrom (s pat : List Char) : Nat → Option Nat
  | 0 => if startsWith s pat then some 0 else none
  | n + 1 =>
    if startsWith (s.drop (n + 1)) pat then some (n + 1) else rfindFrom s pat n

/-- Rust `str::rfind(pat)`: index of the last occurrence of `pat` in `s`. -/
def rfind (s pat : List Char) : Option Nat :=
  rfindFrom s pat s.length

/-- Rust `str::find(p)` for a char predicate: index of first char satisfying `p`. -/
def findCh (p : Char → Bool) : List Char → Option Nat
  | [] => none
  | c :: cs => if p c then some 0 else (findCh p cs).map (· + 1)

/-- The slice `rest[..space]` taken by the source: up to the first space
found by `find(' ')`, or all of `rest` when no space occurs. -/
def valueUpTo (rest : List Char) : List Char :=
  match findCh (fun c => c == ' ') rest with
  | some k => rest.take k
  | none => rest

/-- Rust `str::split(sep)` on a single char separator. -/
def splitOnChar (sep : Char) : List Char → List (List Char)
  | [] => [[]]
  | c :: rest =>
    match splitOnChar sep rest with
    | [] => if c == sep then [[], []] else [[c]]
    | h :: t => if c == sep then [] :: h :: t else (c :: h) :: t

/-- Digit-string value together with sign, range-checked to `i32`;
helper for `parseI32`. -/
def parseDigits (sign : Int) (digits : List Char) : Option Int :=
  if digits = [] then none
  else if digits.all Char.isDigit then
    let n : Nat := digits.foldl (fun acc c => acc * 10 + (c.toNat - 48)) 0
    let v : Int := sign * (n : Int)
    if -2147483648 ≤ v ∧ v ≤ 2147483647 then some v else none
  else none

/-- Rust `str::parse::<i32>`: optional single `+`/`-` sign, then one or
more ASCII digits, value within the `i32` range. -/
def parseI32 (s : List Char) : Option Int :=
  match s with
  | '+' :: rest => parseDigits 1 rest
  | '-' :: rest => parseDigits (-1) rest
  | rest => parseDigits 1 rest

/-- The marker `--jobserver-auth=` searched for at line 53 of the source. -/
def authMarker : List Char := "--jobserver-auth=".data

/-- The marker `--jobserver-auth=fifo:` searched for at line 42 of the source. -/
def fifoMarker : List Char := "--jobserver-auth=fifo:".data

/-- The predicate of the `find` at line 56 of the source:
a minus sign or an ASCII digit. -/
def digitOrMinus (c : Char) : Bool := c == '-' || c.isDigit

/-- `JobServerStyle` from the source (unix variants). -/
inductive JobServerStyle where
  | Fifo : List Char → JobServerStyle
  | Pipe : Int → Int → JobServerStyle
deriving DecidableEq

/-- `ParseJobserverAuthError` from the source. -/
inductive ParseJobserverAuthError where
  | InvalidJobServerAuth : List Char → ParseJobserverAuthError
  | InvalidPipeDescriptors : ParseJobserverAuthError
deriving DecidableEq

/-- Outcome of `parse_jobserver_auth`: the `Result` of the source plus a
`panicked` outcome for the `unwrap()` calls at lines 70-71, which abort
the process instead of returning. -/
inductive ParseResult where
  | ok : JobServerStyle → ParseResult
  | err : ParseJobserverAuthError → ParseResult
  | panicked : ParseResult
deriving DecidableEq

/-- Lines 59-72 of the source: slice the value up to the next space,
split on commas, require exactly two fields (`InvalidPipeDescriptors`
otherwise), then `parse::<i32>().unwrap()` each field — a parse failure
panics. -/
def pipeFrom (rest : List Char) : ParseResult :=
  match splitOnChar ',' (valueUpTo rest) with
  | [a, b] =>
    match parseI32 a, parseI32 b with
    | some x, some y => ParseResult.ok (JobServerStyle.Pipe x y)
    | _, _ => ParseResult.panicked
  | _ => ParseResult.err ParseJobserverAuthError.InvalidPipeDescriptors

/-- Lines 55-73 of the source: after the last `--jobserver-auth=`, if any
minus sign or digit occurs in the remainder, extract a descriptor pair;
otherwise fall through to `InvalidJobServerAuth`. -/
def afterAuth (makeflags rest : List Char) : ParseResult :=
  if rest.any digitOrMinus then pipeFrom rest
  else ParseResult.err (ParseJobserverAuthError.InvalidJobServerAuth makeflags)

/-- `parse_jobserver_auth` from the source (lines 39-79): last
`--jobserver-auth=fifo:` occurrence wins and yields `Fifo` of the
substring up to the next space; otherwise the last `--jobserver-auth=`
occurrence is examined for a descriptor pair; otherwise
`InvalidJobServerAuth` of the whole string. -/
def parse_jobserver_auth (makeflags : List Char) : ParseResult :=
  match rfind makeflags fifoMarker with
  | some pos =>
    ParseResult.ok
      (JobServerStyle.Fifo (valueUpTo (makeflags.drop (pos + fifoMarker.length))))
  | none =>
    match rfind makeflags authMarker with
    | some pos => afterAuth makeflags (makeflags.drop (pos + authMarker.length))
    | none =>
      ParseResult.err (ParseJobserverAuthError.InvalidJobServerAuth makeflags)

example :
    parse_jobserver_auth " -j2 --jobserver-auth=fifo:/tmp/GMfifo6851".data =
      ParseResult.ok (JobServerStyle.Fifo "/tmp/GMfifo6851".data) := by decide

example :
    parse_jobserver_auth " -j2 --jobserver-auth=fifo:/tmp/GMfifo6851 -blah".data =
      ParseResult.ok (JobServerStyle.Fifo "/tmp/GMfifo6851".data) := by decide

example :
    parse_jobserver_auth
        " -j2 --jobserver-auth=fifo:/tmp/GMfifo6852 --jobserver-auth=fifo:/tmp/GMfifo6851".data =
      ParseResult.ok (JobServerStyle.Fifo "/tmp/GMfifo6851".data) := by decide

example :
    parse_jobserver_auth "  -j3 --jobserver-auth=3,4 --jobserver-auth=-2,-2".data =
      ParseResult.ok (JobServerStyle.Pipe (-2) (-2)) := by decide

example :
    parse_jobserver_auth "  -j3 --jobserver-auth=3,4".data =
      ParseResult.ok (JobServerStyle.Pipe 3 4) := by decide

/-!
The token exchanger: the `match job_server_style` of `main`
(lines 95-124 of the source). The surrounding I/O is embedded by an
oracle: `readResult` is what the blocking `read_exact` yields (`none`
for a short read or I/O error), `openOk` and `writeOk` are whether
`File::open` and `write_all` succeed. Each run is recorded as the list
of I/O actions the code performs, in order, plus its outcome.
-/

/-- One observable action of `main` during the token exchange. -/
inductive Event where
  | warnNegative : Event
  | openAttempt : List Char → Event
  | readAttempt : Nat → Event
  | readOk : List Nat → Event
  | printByte : Nat → Event
  | writeAttempt : List Nat → Event
  | writeOk : Event
deriving DecidableEq

/-- Outcome of the token exchange part of `main`. -/
inductive ExchangeResult where
  | success : ExchangeResult
  | openFailed : ExchangeResult
  | acquireFailed : ExchangeResult
  | releaseFailed : ExchangeResult
deriving DecidableEq

/-- The `JobServerStyle::Fifo` arm of `main` (lines 96-108): open the
fifo, `read_exact` 2 bytes, print both, `write_all` the same buffer. -/
def runFifo (path : List Char) (openOk : Bool) (readResult : Option (Nat × Nat))
    (writeOk : Bool) : List Event × ExchangeResult :=
  if openOk then
    match readResult with
    | none => ([Event.openAttempt path, Event.readAttempt 2], ExchangeResult.acquireFailed)
    | some (b1, b2) =>
      let evs := [Event.openAttempt path, Event.readAttempt 2, Event.readOk [b1, b2],
        Event.printByte b1, Event.printByte b2, Event.writeAttempt [b1, b2]]
      if writeOk then (evs ++ [Event.writeOk], ExchangeResult.success)
      else (evs, ExchangeResult.releaseFailed)
  else ([Event.openAttempt path], ExchangeResult.openFailed)

/-- The `JobServerStyle::Pipe` arm of `main` (lines 109-123): when either
descriptor is negative, warn and skip; otherwise `read_exact` 1 byte from
the read descriptor, print it, `write_all` the same buffer to the write
descriptor. -/
def runPipe (read_fd write_fd : Int) (readResult : Option Nat)
    (writeOk : Bool) : List Event × ExchangeResult :=
  if read_fd < 0 ∨ write_fd < 0 then ([Event.warnNegative], ExchangeResult.success)
  else
    match readResult with
    | none => ([Event.readAttempt 1], ExchangeResult.acquireFailed)
    | some b =>
      let evs := [Event.readAttempt 1, Event.readOk [b], Event.printByte b,
        Event.writeAttempt [b]]
      if writeOk then (evs ++ [Event.writeOk], ExchangeResult.success)
      else (evs, ExchangeResult.releaseFailed)

/-! Helper lemmas about the string primitives. -/

theorem startsWith_nil_false (p : Char) (ps : List Char) :
    startsWith [] (p :: ps) = false := rfl

theorem startsWith_append_left (s : List Char) :
    ∀ a b : List Char, startsWith s (a ++ b) = true → startsWith s a = true := by
  induction s with
  | nil =>
    intro a b h
    cases a with
    | nil => rfl
    | cons p ps => simp [startsWith] at h
  | cons c cs ih =>
    intro a b h
    cases a with
    | nil => rfl
    | cons p ps =>
      simp only [List.cons_append, startsWith, Bool.and_eq_true] at h ⊢
      exact ⟨h.1, ih ps b h.2⟩

theorem rfindFrom_none (s pat : List Char) :
    ∀ n, rfindFrom s pat n = none →
      ∀ k, k ≤ n → startsWith (s.drop k) pat = false := by
  intro n
  induction n with
  | zero =>
    intro h k hk
    interval_cases k
    simp only [rfindFrom] at h
    by_cases hs : startsWith s pat
    · simp [hs] at h
    · simpa using hs
  | succ n ih =>
    intro h k hk
    simp only [rfindFrom] at h
    by_cases hs : startsWith (s.drop (n + 1)) pat
    · simp [hs] at h
    · rcases Nat.lt_or_ge k (n + 1) with hlt | hge
      · exact ih (by simpa [hs] using h) k (Nat.lt_succ_iff.mp hlt)
      · have : k = n + 1 := Nat.le_antisymm hk hge
        subst this
        simpa using hs

theorem rfindFrom_some (s pat : List Char) :
    ∀ n j, rfindFrom s pat n = some j →
      j ≤ n ∧ startsWith (s.drop j) pat = true ∧
        ∀ k, j < k → k ≤ n → startsWith (s.drop k) pat = false := by
  intro n
  induction n with
  | zero =>
    intro j h
    simp only [rfindFrom] at h
    by_cases hs : startsWith s pat
    · simp only [hs, if_true, Option.some.injEq] at h
      subst h
      refine ⟨Nat.le_refl 0, by simpa using hs, ?_⟩
      intro k hk hk0
      omega
    · simp [hs] at h
  | succ n ih =>
    intro j h
    simp only [rfindFrom] at h
    by_cases hs : startsWith (s.drop (n + 1)) pat
    · simp only [hs, if_true, Option.some.injEq] at h
      subst h
      refine ⟨Nat.le_refl _, hs, ?_⟩
      intro k hk hk'
      omega
    · simp only [hs, if_false] at h
      obtain ⟨hle, hocc, hmax⟩ := ih j h
      refine ⟨Nat.le_succ_of_le hle, hocc, ?_⟩
      intro k hk hk'
      rcases Nat.lt_or_ge k (n + 1) with hlt | hge
      · exact hmax k hk (Nat.lt_succ_iff.mp hlt)
      · have : k = n + 1 := Nat.le_antisymm hk' hge
        subst this
        simpa using hs

theorem rfind_some (s pat : List Char) (j : Nat) (hpat : pat ≠ [])
    (h : rfind s pat = some j) :
    startsWith (s.drop j) pat = true ∧
      ∀ k, j < k → startsWith (s.drop k) pat = false := by
  obtain ⟨hle, hocc, hmax⟩ := rfindFrom_some s pat s.length j h
  refine ⟨hocc, ?_⟩
  intro k hk
  rcases le_or_lt k s.length with hk' | hk'
  · exact hmax k hk hk'
  · have hdrop : s.drop k = [] := List.drop_eq_nil_of_le (Nat.le_of_lt hk')
    rw [hdrop]
    cases pat with
    | nil => exact absurd rfl hpat
    | cons p ps => rfl

theorem rfind_none (s pat : List Char) (h : rfind s pat = none) :
    ∀ k, startsWith (s.drop k) pat = false := by
  intro k
  rcases le_or_lt k s.length with hk | hk
  · exact rfindFrom_none s pat s.length h k hk
  · have h0 := rfindFrom_none s pat s.length h 0 (Nat.zero_le _)
    have hdrop : s.drop k = [] := List.drop_eq_nil_of_le (Nat.le_of_lt hk)
    rw [hdrop]
    cases pat with
    | nil => simp [startsWith] at h0
    | cons p ps => rfl

theorem rfind_isSome_of_occurrence (s pat : List Char) (i : Nat)
    (h : startsWith (s.drop i) pat = true) : ∃ j, rfind s pat = some j := by
  cases hr : rfind s pat with
  | some j => exact ⟨j, rfl⟩
  | none => exact absurd h (by simp [rfind_none s pat hr i])

/-- The marker `--jobserver-auth=fifo:` extends the marker `--jobserver-auth=`. -/
theorem fifoMarker_eq_append : fifoMarker = authMarker ++ "fifo:".data := by decide

theorem startsWith_auth_of_fifo (t : List Char)
    (h : startsWith t fifoMarker = true) : startsWith t authMarker = true :=
  startsWith_append_left t authMarker "fifo:".data (fifoMarker_eq_append ▸ h)

theorem valueUpTo_eq_takeWhile (rest : List Char) :
    valueUpTo rest = rest.takeWhile (fun c => !(c == ' ')) := by
  induction rest with
  | nil => rfl
  | cons c cs ih =>
    by_cases hc : c == ' '
    · simp [valueUpTo, findCh, hc, List.takeWhile_cons]
    · have hstep : valueUpTo (c :: cs) = c :: valueUpTo cs := by
        cases hf : findCh (fun c => c == ' ') cs with
        | none => simp [valueUpTo, findCh, hc, hf]
        | some k => simp [valueUpTo, findCh, hc, hf, List.take_succ_cons]
      rw [hstep, ih, List.takeWhile_cons]
      simp [hc]

theorem mem_valueUpTo (c : Char) (rest : List Char)
    (h : c ∈ valueUpTo rest) : c ∈ rest := by
  rw [valueUpTo_eq_takeWhile] at h
  have hsplit := List.takeWhile_append_dropWhile (fun c => !(c == ' ')) rest
  rw [← hsplit]
  exact List.mem_append_left _ h

theorem splitOnChar_ne_nil (sep : Char) (xs : List Char) : splitOnChar sep xs ≠ [] := by
  cases xs with
  | nil => simp [splitOnChar]
  | cons c rest =>
    simp only [splitOnChar]
    cases splitOnChar sep rest with
    | nil => by_cases hc : c == sep <;> simp [hc]
    | cons h t => by_cases hc : c == sep <;> simp [hc]

theorem splitOnChar_one (sep : Char) :
    ∀ xs b : List Char, splitOnChar sep xs = [b] → xs = b := by
  intro xs
  induction xs with
  | nil =>
    intro b h
    simp only [splitOnChar, List.cons.injEq] at h
    exact h.1
  | cons c rest ih =>
    intro b h
    simp only [splitOnChar] at h
    cases hr : splitOnChar sep rest with
    | nil => exact absurd hr (splitOnChar_ne_nil sep rest)
    | cons hd tl =>
      rw [hr] at h
      by_cases hc : c == sep
      · simp [hc] at h
      · simp only [hc, Bool.false_eq_true, if_false, List.cons.injEq] at h
        obtain ⟨hb, htl⟩ := h
        subst htl
        have := ih hd hr
        subst this
        exact hb

theorem splitOnChar_pair (sep : Char) :
    ∀ xs a b : List Char, splitOnChar sep xs = [a, b] → xs = a ++ sep :: b := by
  intro xs
  induction xs with
  | nil =>
    intro a b h
    simp [splitOnChar] at h
  | cons c rest ih =>
    intro a b h
    simp only [splitOnChar] at h
    cases hr : splitOnChar sep rest with
    | nil => exact absurd hr (splitOnChar_ne_nil sep rest)
    | cons hd tl =>
      rw [hr] at h
      by_cases hc : c == sep
      · have hceq : c = sep := by simpa using hc
        simp only [hc, if_true, List.cons.injEq] at h
        obtain ⟨ha, hhd, htl⟩ := h
        have hone : splitOnChar sep rest = [b] := by rw [hr, hhd, htl]
        have hrest : rest = b := splitOnChar_one sep rest b hone
        rw [← ha, hrest, hceq]
        rfl
      · simp only [hc, Bool.false_eq_true, if_false, List.cons.injEq] at h
        obtain ⟨ha, htl⟩ := h
        subst ha
        have : splitOnChar sep rest = [hd, b] := by
          rw [hr]
          rw [htl]
        have hrest := ih hd b this
        simp [hrest]

theorem parseDigits_some (sign : Int) (ds : List Char) (v : Int)
    (h : parseDigits sign ds = some v) : ds ≠ [] ∧ ds.all Char.isDigit = true := by
  by_cases h1 : ds = []
  · simp [parseDigits, h1] at h
  · by_cases h2 : ds.all Char.isDigit
    · exact ⟨h1, h2⟩
    · simp [parseDigits, h1, h2] at h

theorem parseI32_gate (a : List Char) (x : Int) (h : parseI32 a = some x) :
    ∃ c ∈ a, digitOrMinus c = true := by
  unfold parseI32 at h
  split at h
  · rename_i rest
    obtain ⟨hne, hall⟩ := parseDigits_some _ _ _ h
    cases rest with
    | nil => exact absurd rfl hne
    | cons d ds =>
      simp only [List.all_cons, Bool.and_eq_true] at hall
      exact ⟨d, by simp, by simp [digitOrMinus, hall.1]⟩
  · exact ⟨'-', by simp, by decide⟩
  · obtain ⟨hne, hall⟩ := parseDigits_some _ _ _ h
    cases a with
    | nil => exact absurd rfl hne
    | cons d ds =>
      simp only [List.all_cons, Bool.and_eq_true] at hall
      exact ⟨d, by simp, by simp [digitOrMinus, hall.1]⟩



/-! Claim theorems. -/

/-- C2, counterexample: in a string whose earlier marker is the fifo form
and whose later marker is the descriptor-pair form, the resolver returns
the fifo variant of the earlier marker, not the descriptor pair of the
later marker. -/
theorem mixed_markers_fifo_wins_cex :
    parse_jobserver_auth " --jobserver-auth=fifo:/p --jobserver-auth=3,4".data =
        ParseResult.ok (JobServerStyle.Fifo "/p".data) ∧
      parse_jobserver_auth " --jobserver-auth=fifo:/p --jobserver-auth=3,4".data ≠
        ParseResult.ok (JobServerStyle.Pipe 3 4) := by decide

/-- C2, amended: the fifo form takes precedence over the descriptor-pair
form regardless of position; whenever any fifo marker occurs, the result
is the fifo variant of the last fifo occurrence, and no fifo occurrence
lies beyond it. -/
theorem last_fifo_marker_wins (s : List Char) (j : Nat)
    (hf : rfind s fifoMarker = some j) :
    (∀ k, j < k → startsWith (s.drop k) fifoMarker = false) ∧
      parse_jobserver_auth s =
        ParseResult.ok (JobServerStyle.Fifo (valueUpTo (s.drop (j + fifoMarker.length)))) := by
  obtain ⟨hocc, hmax⟩ := rfind_some s fifoMarker j (by decide) hf
  exact ⟨hmax, by simp only [parse_jobserver_auth, hf]⟩

/-- C2, witness: the spec example with two fifo occurrences resolves to
the last one. -/
theorem last_fifo_marker_wins_witness :
    ((∀ k, 43 < k →
        startsWith
          ((" -j2 --jobserver-auth=fifo:/tmp/GMfifo6852 --jobserver-auth=fifo:/tmp/GMfifo6851".data).drop k)
          fifoMarker = false) ∧
      parse_jobserver_auth
          " -j2 --jobserver-auth=fifo:/tmp/GMfifo6852 --jobserver-auth=fifo:/tmp/GMfifo6851".data =
        ParseResult.ok (JobServerStyle.Fifo
          (valueUpTo
            ((" -j2 --jobserver-auth=fifo:/tmp/GMfifo6852 --jobserver-auth=fifo:/tmp/GMfifo6851".data).drop
              (43 + fifoMarker.length))))) ∧
      valueUpTo
          ((" -j2 --jobserver-auth=fifo:/tmp/GMfifo6852 --jobserver-auth=fifo:/tmp/GMfifo6851".data).drop
            (43 + fifoMarker.length)) = "/tmp/GMfifo6851".data :=
  ⟨last_fifo_marker_wins
      " -j2 --jobserver-auth=fifo:/tmp/GMfifo6852 --jobserver-auth=fifo:/tmp/GMfifo6851".data
      43 (by decide),
    by decide⟩

/-- C4: whenever the fifo marker occurs in the coordination string, the
resolver returns the fifo variant whose path is the substring starting
right after the last fifo marker and running up to the next space, or to
the end of the string when no space follows. -/
theorem fifo_path_extraction (s : List Char)
    (h : ∃ i, startsWith (s.drop i) fifoMarker = true) :
    ∃ j, startsWith (s.drop j) fifoMarker = true ∧
      (∀ k, j < k → startsWith (s.drop k) fifoMarker = false) ∧
      parse_jobserver_auth s =
        ParseResult.ok (JobServerStyle.Fifo
          ((s.drop (j + fifoMarker.length)).takeWhile (fun c => !(c == ' ')))) := by
  obtain ⟨i, hi⟩ := h
  obtain ⟨j, hj⟩ := rfind_isSome_of_occurrence s fifoMarker i hi
  obtain ⟨hocc, hmax⟩ := rfind_some s fifoMarker j (by decide) hj
  refine ⟨j, hocc, hmax, ?_⟩
  simp only [parse_jobserver_auth, hj]
  rw [valueUpTo_eq_takeWhile]

/-- C4, witness: the fifo path is cut at the space before `-blah`. -/
theorem fifo_path_extraction_witness :
    ∃ j, startsWith ((" -j2 --jobserver-auth=fifo:/tmp/GMfifo6851 -blah".data).drop j)
        fifoMarker = true ∧
      (∀ k, j < k →
        startsWith ((" -j2 --jobserver-auth=fifo:/tmp/GMfifo6851 -blah".data).drop k)
          fifoMarker = false) ∧
      parse_jobserver_auth " -j2 --jobserver-auth=fifo:/tmp/GMfifo6851 -blah".data =
        ParseResult.ok (JobServerStyle.Fifo
          (((" -j2 --jobserver-auth=fifo:/tmp/GMfifo6851 -blah".data).drop
              (j + fifoMarker.length)).takeWhile (fun c => !(c == ' ')))) :=
  fifo_path_extraction " -j2 --jobserver-auth=fifo:/tmp/GMfifo6851 -blah".data ⟨5, by decide⟩

/-- C6: a coordination string with no occurrence of `--jobserver-auth=`
resolves to the error `InvalidJobServerAuth` carrying the original
string. -/
theorem no_marker_invalid (s : List Char)
    (h : ∀ i, i ≤ s.length → startsWith (s.drop i) authMarker = false) :
    parse_jobserver_auth s =
      ParseResult.err (ParseJobserverAuthError.InvalidJobServerAuth s) := by
  have hfifo : rfind s fifoMarker = none := by
    cases hr : rfind s fifoMarker with
    | none => rfl
    | some j =>
      obtain ⟨hle, hocc, _⟩ := rfindFrom_some s fifoMarker s.length j hr
      have hauth := startsWith_auth_of_fifo _ hocc
      rw [h j hle] at hauth
      simp at hauth
  have hauth : rfind s authMarker = none := by
    cases hr : rfind s authMarker with
    | none => rfl
    | some j =>
      obtain ⟨hle, hocc, _⟩ := rfindFrom_some s authMarker s.length j hr
      rw [h j hle] at hocc
      simp at hocc
  simp only [parse_jobserver_auth, hfifo, hauth]

/-- C6, witness: a flags string without any marker is rejected with the
original string inside the error. -/
theorem no_marker_invalid_witness :
    parse_jobserver_auth "-j4".data =
      ParseResult.err (ParseJobserverAuthError.InvalidJobServerAuth "-j4".data) :=
  no_marker_invalid "-j4".data (by decide)

/-- C1, counterexample: a descriptor field that fails integer parsing
makes the parser panic via `unwrap()`; the error `InvalidPipeDescriptors`
is not returned to the caller. -/
theorem parse_failure_panics_cex :
    parse_jobserver_auth "--jobserver-auth=3,x".data = ParseResult.panicked ∧
      parse_jobserver_auth "--jobserver-auth=3,x".data ≠
        ParseResult.err ParseJobserverAuthError.InvalidPipeDescriptors := by decide

/-- C1, amended: with no fifo marker, when the remainder after the last
marker passes the digit-or-minus gate and the value splits into exactly
two fields of which at least one fails integer parsing, the parser
panics (aborts) instead of returning an error. -/
theorem parse_failure_panics (s : List Char) (pos : Nat) (a b : List Char)
    (hf : rfind s fifoMarker = none)
    (hm : rfind s authMarker = some pos)
    (hgate : (s.drop (pos + authMarker.length)).any digitOrMinus = true)
    (hsplit : splitOnChar ',' (valueUpTo (s.drop (pos + authMarker.length))) = [a, b])
    (hbad : parseI32 a = none ∨ parseI32 b = none) :
    parse_jobserver_auth s = ParseResult.panicked := by
  simp only [parse_jobserver_auth, hf, hm, afterAuth, hgate, if_true, pipeFrom, hsplit]
  rcases hbad with hb | hb
  · rw [hb]
  · rw [hb]
    cases parseI32 a <;> rfl

/-- C1, witness: concrete panic at a non-numeric second field. -/
theorem parse_failure_panics_witness :
    parse_jobserver_auth " -j2 --jobserver-auth=5,y".data = ParseResult.panicked :=
  parse_failure_panics " -j2 --jobserver-auth=5,y".data 5 ['5'] ['y']
    (by decide) (by decide) (by decide) (by decide) (Or.inr (by decide))

/-- C3, counterexample: the character right after the marker is `x`,
neither a digit nor a minus sign, yet a digit later in the string makes
the parser attempt descriptor extraction and fail with
`InvalidPipeDescriptors` instead of `InvalidJobServerAuth`. -/
theorem gate_scans_whole_remainder_cex :
    parse_jobserver_auth "--jobserver-auth=x 1".data =
        ParseResult.err ParseJobserverAuthError.InvalidPipeDescriptors ∧
      parse_jobserver_auth "--jobserver-auth=x 1".data ≠
        ParseResult.err
          (ParseJobserverAuthError.InvalidJobServerAuth "--jobserver-auth=x 1".data) := by
  decide

/-- C3, amended: with no fifo marker and the last `--jobserver-auth=` at
`pos`, descriptor-pair extraction is attempted exactly when a digit or a
minus sign occurs anywhere in the remainder of the string after the
marker; when none occurs the result is `InvalidJobServerAuth` of the
original string. -/
theorem gate_scans_whole_remainder (s : List Char) (pos : Nat)
    (hf : rfind s fifoMarker = none)
    (hm : rfind s authMarker = some pos) :
    ((s.drop (pos + authMarker.length)).any digitOrMinus = false →
      parse_jobserver_auth s =
        ParseResult.err (ParseJobserverAuthError.InvalidJobServerAuth s)) ∧
    ((s.drop (pos + authMarker.length)).any digitOrMinus = true →
      parse_jobserver_auth s = pipeFrom (s.drop (pos + authMarker.length))) := by
  constructor <;> intro hg <;> simp [parse_jobserver_auth, hf, hm, afterAuth, hg]

/-- C3, witness: both directions of the gate at concrete strings. -/
theorem gate_scans_whole_remainder_witness :
    (parse_jobserver_auth "--jobserver-auth=xyz".data =
        ParseResult.err
          (ParseJobserverAuthError.InvalidJobServerAuth "--jobserver-auth=xyz".data)) ∧
      parse_jobserver_auth "--jobserver-auth=q 7".data =
        pipeFrom (("--jobserver-auth=q 7".data).drop (0 + authMarker.length)) :=
  ⟨(gate_scans_whole_remainder "--jobserver-auth=xyz".data 0 (by decide) (by decide)).1
      (by decide),
    (gate_scans_whole_remainder "--jobserver-auth=q 7".data 0 (by decide) (by decide)).2
      (by decide)⟩

/-- C5, counterexample: a fifo marker anywhere overrides a later
descriptor pair, so the universally quantified claim fails; and a
three-field value without digits yields `InvalidJobServerAuth`, not
`InvalidPipeDescriptors`. -/
theorem descriptor_pair_parsing_cex :
    parse_jobserver_auth " --jobserver-auth=fifo:/q --jobserver-auth=5,6".data =
        ParseResult.ok (JobServerStyle.Fifo "/q".data) ∧
      parse_jobserver_auth " --jobserver-auth=fifo:/q --jobserver-auth=5,6".data ≠
        ParseResult.ok (JobServerStyle.Pipe 5 6) ∧
      parse_jobserver_auth "--jobserver-auth=a,b,c".data =
        ParseResult.err
          (ParseJobserverAuthError.InvalidJobServerAuth "--jobserver-auth=a,b,c".data) ∧
      parse_jobserver_auth "--jobserver-auth=a,b,c".data ≠
        ParseResult.err ParseJobserverAuthError.InvalidPipeDescriptors := by decide

/-- C5, amended: with no fifo marker and the last `--jobserver-auth=` at
`pos`: a value splitting into two integer fields yields the descriptor
pair exactly, and (given the digit-or-minus gate holds) a field count
other than two yields `InvalidPipeDescriptors`. -/
theorem descriptor_pair_parsing (s : List Char) (pos : Nat) (a b : List Char) (x y : Int)
    (hf : rfind s fifoMarker = none)
    (hm : rfind s authMarker = some pos) :
    (splitOnChar ',' (valueUpTo (s.drop (pos + authMarker.length))) = [a, b] →
      parseI32 a = some x → parseI32 b = some y →
      parse_jobserver_auth s = ParseResult.ok (JobServerStyle.Pipe x y)) ∧
    ((s.drop (pos + authMarker.length)).any digitOrMinus = true →
      (splitOnChar ',' (valueUpTo (s.drop (pos + authMarker.length)))).length ≠ 2 →
      parse_jobserver_auth s =
        ParseResult.err ParseJobserverAuthError.InvalidPipeDescriptors) := by
  constructor
  · intro hsplit hx hy
    obtain ⟨c, hca, hcd⟩ := parseI32_gate a x hx
    have hval : valueUpTo (s.drop (pos + authMarker.length)) = a ++ ',' :: b :=
      splitOnChar_pair ',' _ a b hsplit
    have hcin : c ∈ s.drop (pos + authMarker.length) := by
      apply mem_valueUpTo
      rw [hval]
      exact List.mem_append_left _ hca
    have hgate : (s.drop (pos + authMarker.length)).any digitOrMinus = true :=
      List.any_eq_true.mpr ⟨c, hcin, hcd⟩
    simp only [parse_jobserver_auth, hf, hm, afterAuth, hgate, if_true, pipeFrom, hsplit,
      hx, hy]
  · intro hgate hlen
    simp only [parse_jobserver_auth, hf, hm, afterAuth, hgate, if_true, pipeFrom]
    rcases hsp : splitOnChar ',' (valueUpTo (s.drop (pos + authMarker.length))) with
      _ | ⟨u, _ | ⟨v, _ | ⟨w, t⟩⟩⟩
    · rfl
    · rfl
    · rw [hsp] at hlen
      simp at hlen
    · rfl

/-- C5, witness: the spec example resolves to the pair (3, 4), and a
numeric three-field value is rejected with `InvalidPipeDescriptors`. -/
theorem descriptor_pair_parsing_witness :
    parse_jobserver_auth "  -j3 --jobserver-auth=3,4".data =
        ParseResult.ok (JobServerStyle.Pipe 3 4) ∧
      parse_jobserver_auth " --jobserver-auth=7,8,9".data =
        ParseResult.err ParseJobserverAuthError.InvalidPipeDescriptors :=
  ⟨(descriptor_pair_parsing "  -j3 --jobserver-auth=3,4".data 6 ['3'] ['4'] 3 4
        (by decide) (by decide)).1 (by decide) (by decide) (by decide),
    (descriptor_pair_parsing " --jobserver-auth=7,8,9".data 1 [] [] 0 0
        (by decide) (by decide)).2 (by decide) (by decide)⟩

/-- C10, counterexample: a string whose last `--jobserver-auth=` marker
is followed by a remainder with no digit and no minus sign can still
resolve successfully, through the fifo branch. -/
theorem no_digit_no_minus_invalid_cex :
    parse_jobserver_auth "--jobserver-auth=fifo:a".data =
        ParseResult.ok (JobServerStyle.Fifo "a".data) ∧
      parse_jobserver_auth "--jobserver-auth=fifo:a".data ≠
        ParseResult.err
          (ParseJobserverAuthError.InvalidJobServerAuth "--jobserver-auth=fifo:a".data) := by
  decide

/-- C10, amended: with no fifo marker, when no digit and no minus sign
occurs anywhere after the last `--jobserver-auth=` marker (including a
marker at end of string), the result is `InvalidJobServerAuth` carrying
the original string — neither `InvalidPipeDescriptors` nor a panic. -/
theorem no_digit_no_minus_invalid (s : List Char) (pos : Nat)
    (hf : rfind s fifoMarker = none)
    (hm : rfind s authMarker = some pos)
    (hgate : (s.drop (pos + authMarker.length)).any digitOrMinus = false) :
    parse_jobserver_auth s =
      ParseResult.err (ParseJobserverAuthError.InvalidJobServerAuth s) := by
  simp [parse_jobserver_auth, hf, hm, afterAuth, hgate]

/-- C10, witness: marker with no trailing value at end of string. -/
theorem no_digit_no_minus_invalid_witness :
    parse_jobserver_auth " --jobserver-auth=".data =
      ParseResult.err
        (ParseJobserverAuthError.InvalidJobServerAuth " --jobserver-auth=".data) :=
  no_digit_no_minus_invalid " --jobserver-auth=".data 1 (by decide) (by decide) (by decide)

/-- C7: when either descriptor of a resolved pair is negative, the
exchange performs no read and no write, emits the warning, and the run
still completes successfully. -/
theorem negative_fds_skip (read_fd write_fd : Int) (readResult : Option Nat)
    (writeOk : Bool) (h : read_fd < 0 ∨ write_fd < 0) :
    runPipe read_fd write_fd readResult writeOk =
        ([Event.warnNegative], ExchangeResult.success) ∧
      (∀ n, Event.readAttempt n ∉ (runPipe read_fd write_fd readResult writeOk).1) ∧
      (∀ bs, Event.writeAttempt bs ∉ (runPipe read_fd write_fd readResult writeOk).1) := by
  have heq : runPipe read_fd write_fd readResult writeOk =
      ([Event.warnNegative], ExchangeResult.success) := by
    simp only [runPipe, if_pos h]
  refine ⟨heq, ?_, ?_⟩ <;> intro z <;> rw [heq] <;> simp

/-- C7, witness: the spec scenario with descriptors (-2, -2). -/
theorem negative_fds_skip_witness :
    runPipe (-2) (-2) (some 3) true = ([Event.warnNegative], ExchangeResult.success) ∧
      (∀ n, Event.readAttempt n ∉ (runPipe (-2) (-2) (some 3) true).1) ∧
      (∀ bs, Event.writeAttempt bs ∉ (runPipe (-2) (-2) (some 3) true).1) :=
  negative_fds_skip (-2) (-2) (some 3) true (Or.inl (by norm_num))

/-- C8: on both transports, the bytes written at release are exactly the
bytes read at acquire — one byte on the descriptor-pair transport, two
bytes on the named-pipe transport. -/
theorem token_round_trip (path : List Char) (openOk : Bool)
    (fifoRead : Option (Nat × Nat)) (fifoWrite : Bool)
    (read_fd write_fd : Int) (pipeRead : Option Nat) (pipeWrite : Bool) :
    (∀ bs bs', Event.readOk bs ∈ (runPipe read_fd write_fd pipeRead pipeWrite).1 →
      Event.writeAttempt bs' ∈ (runPipe read_fd write_fd pipeRead pipeWrite).1 →
      bs' = bs ∧ bs.length = 1) ∧
    (∀ bs bs', Event.readOk bs ∈ (runFifo path openOk fifoRead fifoWrite).1 →
      Event.writeAttempt bs' ∈ (runFifo path openOk fifoRead fifoWrite).1 →
      bs' = bs ∧ bs.length = 2) := by
  constructor
  · intro bs bs' hr hw
    unfold runPipe at hr hw
    by_cases hneg : read_fd < 0 ∨ write_fd < 0
    · rw [if_pos hneg] at hr
      simp at hr
    · rw [if_neg hneg] at hr hw
      cases pipeRead with
      | none => simp at hr
      | some byte =>
        cases pipeWrite <;> simp_all
  · intro bs bs' hr hw
    unfold runFifo at hr hw
    cases openOk with
    | false => simp at hr
    | true =>
      cases fifoRead with
      | none => simp at hr
      | some pair =>
        obtain ⟨b1, b2⟩ := pair
        cases fifoWrite <;> simp_all

/-- C8, witness: concrete round trips on both transports. -/
theorem token_round_trip_witness :
    ([65] = [65] ∧ ([65] : List Nat).length = 1) ∧
      ([7, 8] = [7, 8] ∧ ([7, 8] : List Nat).length = 2) :=
  ⟨(token_round_trip "/f".data true (some (7, 8)) true 3 4 (some 65) true).1 [65] [65]
      (by decide) (by decide),
    (token_round_trip "/f".data true (some (7, 8)) true 3 4 (some 65) true).2 [7, 8] [7, 8]
      (by decide) (by decide)⟩

/-- C9: on both transports a release write appears in the trace only
after a fully successful acquire read, and when the acquire fails no
release write is attempted at all. -/
theorem release_only_after_acquire (path : List Char) (openOk : Bool)
    (fifoRead : Option (Nat × Nat)) (fifoWrite : Bool)
    (read_fd write_fd : Int) (pipeRead : Option Nat) (pipeWrite : Bool) :
    (∀ bs, Event.writeAttempt bs ∈ (runPipe read_fd write_fd pipeRead pipeWrite).1 →
      ∃ pre post, (runPipe read_fd write_fd pipeRead pipeWrite).1 =
          pre ++ Event.writeAttempt bs :: post ∧ Event.readOk bs ∈ pre) ∧
    (pipeRead = none →
      ∀ bs, Event.writeAttempt bs ∉ (runPipe read_fd write_fd pipeRead pipeWrite).1) ∧
    (∀ bs, Event.writeAttempt bs ∈ (runFifo path openOk fifoRead fifoWrite).1 →
      ∃ pre post, (runFifo path openOk fifoRead fifoWrite).1 =
          pre ++ Event.writeAttempt bs :: post ∧ Event.readOk bs ∈ pre) ∧
    (fifoRead = none →
      ∀ bs, Event.writeAttempt bs ∉ (runFifo path openOk fifoRead fifoWrite).1) := by
  refine ⟨?_, ?_, ?_, ?_⟩
  · intro bs hw
    unfold runPipe at hw ⊢
    by_cases hneg : read_fd < 0 ∨ write_fd < 0
    · rw [if_pos hneg] at hw
      simp at hw
    · rw [if_neg hneg] at hw ⊢
      cases pipeRead with
      | none => simp at hw
      | some byte =>
        have hbs : bs = [byte] := by cases pipeWrite <;> simp_all
        subst hbs
        cases pipeWrite with
        | false =>
          exact ⟨[Event.readAttempt 1, Event.readOk [byte], Event.printByte byte], [],
            by simp, by simp⟩
        | true =>
          exact ⟨[Event.readAttempt 1, Event.readOk [byte], Event.printByte byte],
            [Event.writeOk], by simp, by simp⟩
  · intro hnone bs
    subst hnone
    unfold runPipe
    by_cases hneg : read_fd < 0 ∨ write_fd < 0
    · rw [if_pos hneg]
      simp
    · rw [if_neg hneg]
      simp
  · intro bs hw
    unfold runFifo at hw ⊢
    cases openOk with
    | false => simp at hw
    | true =>
      cases fifoRead with
      | none => simp at hw
      | some pair =>
        obtain ⟨b1, b2⟩ := pair
        have hbs : bs = [b1, b2] := by cases fifoWrite <;> simp_all
        subst hbs
        cases fifoWrite with
        | false =>
          exact ⟨[Event.openAttempt path, Event.readAttempt 2, Event.readOk [b1, b2],
            Event.printByte b1, Event.printByte b2], [], by simp, by simp⟩
        | true =>
          exact ⟨[Event.openAttempt path, Event.readAttempt 2, Event.readOk [b1, b2],
            Event.printByte b1, Event.printByte b2], [Event.writeOk], by simp, by simp⟩
  · intro hnone bs
    subst hnone
    unfold runFifo
    cases openOk <;> simp

/-- C9, witness: a successful pipe exchange has its read before its
write, and a failed pipe acquire never writes. -/
theorem release_only_after_acquire_witness :
    (∃ pre post, (runPipe 3 4 (some 65) true).1 =
        pre ++ Event.writeAttempt [65] :: post ∧ Event.readOk [65] ∈ pre) ∧
      (∀ bs, Event.writeAttempt bs ∉ (runPipe 3 4 none true).1) :=
  ⟨(release_only_after_acquire "/f".data true (some (7, 8)) true 3 4 (some 65) true).1 [65]
      (by decide),
    (release_only_after_acquire "/f".data true (some (7, 8)) true 3 4 none true).2.1 rfl⟩
